import Mathlib

/-!
Shallow embedding of the incremental RAG synchronization pipeline of
`scripts/build_rag.py` (chunking, document extraction, diffing, persistence
and remote batching), together with proofs of the specified properties.

Python strings are modelled as Lean `String` (sequences of characters;
Python indexing/slicing is by code point, as is `List Char` indexing).
Machine-level details that the claims do not touch (exact SHA-256 output,
HTTP transport, SQLite file format) are modelled abstractly: the checksum
function is a parameter, remote outcomes are boolean oracles, and the state
store is the `id → checksum` table content.
-/

namespace BuildRag

/-- The characters removed by Python `str.strip()`: exactly the code points
for which CPython `str.isspace()` holds — tab through carriage return
(9-13), the file/group/record/unit separators U+001C-U+001F and space
(28-32), next line U+0085 (133), no-break space U+00A0 (160), ogham space
mark U+1680 (5760), the en-quad through hair-space block U+2000-U+200A
(8192-8202), line separator U+2028 (8232), paragraph separator U+2029
(8233), narrow no-break space U+202F (8239), medium mathematical space
U+205F (8287) and ideographic space U+3000 (12288). -/
def pyWS (c : Char) : Bool :=
  (9 ≤ c.toNat && c.toNat ≤ 13) || (28 ≤ c.toNat && c.toNat ≤ 32)
    || c.toNat == 133 || c.toNat == 160 || c.toNat == 5760
    || (8192 ≤ c.toNat && c.toNat ≤ 8202) || c.toNat == 8232 || c.toNat == 8233
    || c.toNat == 8239 || c.toNat == 8287 || c.toNat == 12288

/-- Python `str.strip()` on a character list: drop leading and trailing
whitespace. -/
def stripL (l : List Char) : List Char :=
  ((l.dropWhile pyWS).reverse.dropWhile pyWS).reverse

/-- Python `str.strip()` on a string. -/
def stripS (s : String) : String :=
  ⟨stripL s.data⟩

/-- Python slice `l[a:b]` (for `0 ≤ a ≤ b` and clamped at the length, which
is how `split_text` uses it). -/
def listSlice (l : List Char) (a b : Nat) : List Char :=
  (l.take b).drop a

/-- Python slice `s[a:b]` on a string. -/
def sliceS (s : String) (a b : Nat) : String :=
  ⟨listSlice s.data a b⟩

/-- The `while start < text_len` loop of `split_text` (lines 194-200),
instrumented to return the pre-trim window positions `(start, end)` instead
of the chunk texts.  The loop of the source has no termination guarantee,
so it is embedded with explicit fuel: `none` means the fuel ran out.
`start = max(0, end - overlap)` is truncated `Nat` subtraction, which equals
the source's `max(0, …)` clamp on Python ints. -/
def rangesLoop (fuel textLen chunkSize overlap start e : Nat) :
    Option (List (Nat × Nat)) :=
  match fuel with
  | 0 => none
  | fuel + 1 =>
    if start < textLen then
      if textLen ≤ e then some [(start, e)]
      else
        match rangesLoop fuel textLen chunkSize overlap (e - overlap)
            (min textLen (e - overlap + chunkSize)) with
        | some rest => some ((start, e) :: rest)
        | none => none
    else some []

/-- The `while start < text_len` loop of `split_text` exactly as written:
each iteration appends `text[start:end].strip()`; `break` after the append
when `end >= text_len`; otherwise `start = max(0, end - overlap)` and
`end = min(text_len, start + chunk_size)`.  Fueled, `none` = non-termination
within the given fuel. -/
def chunksLoop (fuel : Nat) (text : List Char) (chunkSize overlap start e : Nat) :
    Option (List (List Char)) :=
  match fuel with
  | 0 => none
  | fuel + 1 =>
    if start < text.length then
      let chunk := stripL (listSlice text start e)
      if text.length ≤ e then some [chunk]
      else
        match chunksLoop fuel text chunkSize overlap (e - overlap)
            (min text.length (e - overlap + chunkSize)) with
        | some rest => some (chunk :: rest)
        | none => none
    else some []

/-- `split_text(text, chunk_size, overlap)` (lines 186-201).  The early
return for `len(text) <= chunk_size` gives `[text.strip()]` (unfiltered);
otherwise the loop runs from `start = 0`, `end = chunk_size` and the final
`[chunk for chunk in chunks if chunk]` drops empty chunks.  The loop gets
fuel `len(text) + 1`, which suffices whenever the source loop terminates
(`end` advances by at least `chunk_size - overlap ≥ 1` per iteration). -/
def split_text (text : String) (chunkSize overlap : Nat) : Option (List String) :=
  if text.length ≤ chunkSize then some [stripS text]
  else
    (chunksLoop (text.length + 1) text.data chunkSize overlap 0 chunkSize).map
      (fun cs => (cs.filter (· ≠ [])).map String.mk)

/-- Window positions taken by `split_text`: a single whole-text window in the
early-return case, else the loop windows. -/
def split_ranges (textLen chunkSize overlap : Nat) : Option (List (Nat × Nat)) :=
  if textLen ≤ chunkSize then some [(0, textLen)]
  else rangesLoop (textLen + 1) textLen chunkSize overlap 0 chunkSize

/-- ASCII alphanumeric test, the complement of the `[^a-zA-Z0-9]` class used
by `slugify`. -/
def isAlnumA (c : Char) : Bool :=
  (97 ≤ c.toNat && c.toNat ≤ 122) || (65 ≤ c.toNat && c.toNat ≤ 90)
    || (48 ≤ c.toNat && c.toNat ≤ 57)

/-- `re.sub(r"[^a-zA-Z0-9]+", "-", value)`: every maximal run of
non-alphanumeric characters becomes one hyphen.  Realised by replacing each
non-alphanumeric character with a hyphen and collapsing hyphen runs (all
post-replacement hyphens stem from non-alphanumeric characters). -/
def dashify (l : List Char) : List Char :=
  l.map (fun c => if isAlnumA c then c else '-')

/-- Collapse consecutive duplicate hyphens to a single hyphen. -/
def collapseDashes : List Char → List Char
  | [] => []
  | [c] => [c]
  | a :: b :: t =>
    if a == '-' && b == '-' then collapseDashes (b :: t)
    else a :: collapseDashes (b :: t)

/-- Python `.strip("-")`: drop leading and trailing hyphens. -/
def stripDashes (l : List Char) : List Char :=
  ((l.dropWhile (· == '-')).reverse.dropWhile (· == '-')).reverse

/-- `slugify(value)` (lines 219-223): collapse non-alphanumeric runs to `-`,
strip hyphens at both ends, lowercase, and fall back to `"entry"` when the
result is empty.  `.lower()` is modelled for ASCII via `Char.toLower`. -/
def slugify (value : String) : String :=
  let slug : String := ⟨(stripDashes (collapseDashes (dashify value.data))).map Char.toLower⟩
  if slug = "" then "entry" else slug

/-- JSON values as produced by `json.loads` on the knowledge files.  Numbers
are modelled as integers (the repository's data uses no floats; floats have
no faithful shallow embedding and no claim depends on them). -/
inductive JValue where
  | null
  | bool (b : Bool)
  | num (n : Int)
  | str (s : String)
  | arr (items : List JValue)
  | obj (fields : List (String × JValue))

/-- Escape one character for a JSON string literal (`ensure_ascii=False`):
quote, backslash and the common control characters.  Other control
characters would be `\uXXXX`-escaped by `json.dumps`; the repository's data
and the claims do not exercise them. -/
def jescChar (c : Char) : String :=
  if c = '"' then "\\\"" else if c = '\\' then "\\\\"
  else if c = '\n' then "\\n" else if c = '\t' then "\\t"
  else if c = '\r' then "\\r" else String.singleton c

/-- Escape a whole string for a JSON string literal. -/
def jesc (s : String) : String :=
  String.join (s.data.map jescChar)

/-- Indentation of `2 * lvl` spaces, as produced by `json.dumps(…, indent=2)`. -/
def jpad (lvl : Nat) : String :=
  ⟨List.replicate (2 * lvl) ' '⟩

mutual
/-- `json.dumps(v, ensure_ascii=False, indent=2)` at nesting level `lvl`,
as called by `render_body` (line 215). -/
def dumpsV : Nat → JValue → String
  | _, .null => "null"
  | _, .bool b => if b then "true" else "false"
  | _, .num n => n.repr
  | _, .str s => "\"" ++ jesc s ++ "\""
  | _, .arr [] => "[]"
  | lvl, .arr (v :: rest) =>
    "[\n" ++ dumpsItems (lvl + 1) (v :: rest) ++ "\n" ++ jpad lvl ++ "]"
  | _, .obj [] => "\x7b\x7d"
  | lvl, .obj (kv :: rest) =>
    "\x7b\n" ++ dumpsFields (lvl + 1) (kv :: rest) ++ "\n" ++ jpad lvl ++ "\x7d"

/-- Comma-and-newline separated, indented array items of `json.dumps`. -/
def dumpsItems : Nat → List JValue → String
  | _, [] => ""
  | lvl, [v] => jpad lvl ++ dumpsV lvl v
  | lvl, v :: w :: rest =>
    jpad lvl ++ dumpsV lvl v ++ ",\n" ++ dumpsItems lvl (w :: rest)

/-- Comma-and-newline separated, indented object fields of `json.dumps`. -/
def dumpsFields : Nat → List (String × JValue) → String
  | _, [] => ""
  | lvl, [(k, v)] => jpad lvl ++ "\"" ++ jesc k ++ "\": " ++ dumpsV lvl v
  | lvl, (k, v) :: kv :: rest =>
    jpad lvl ++ "\"" ++ jesc k ++ "\": " ++ dumpsV lvl v ++ ",\n"
      ++ dumpsFields lvl (kv :: rest)
end

/-- Python `str(v)` for the values that reach it in `generate_documents`
(line 182) and `render_body` (line 216): scalars only.  Containers never
reach `str()` in the source (`render_body` routes them to `json.dumps`);
they are mapped to their dump so the function stays total. -/
def pyStr : JValue → String
  | .null => "None"
  | .bool b => if b then "True" else "False"
  | .num n => n.repr
  | .str s => s
  | .arr items => dumpsV 0 (.arr items)
  | .obj fields => dumpsV 0 (.obj fields)

/-- `render_body(entry)` (lines 213-216): pretty-printed JSON for containers,
`str(entry)` otherwise. -/
def render_body : JValue → String
  | .arr items => dumpsV 0 (.arr items)
  | .obj fields => dumpsV 0 (.obj fields)
  | v => pyStr v

/-- The fixed priority list of label-like keys probed by `guess_label`. -/
def labelKeys : List String := ["title", "company", "name", "question", "label", "role"]

/-- The probing loop of `guess_label` (lines 205-209): first key whose value
is a string with non-empty strip wins, and the stripped value is returned. -/
def probeKeys : List String → List (String × JValue) → Option String
  | [], _ => none
  | k :: ks, fields =>
    match fields.lookup k with
    | some (.str s) => if stripS s ≠ "" then some (stripS s) else probeKeys ks fields
    | _ => probeKeys ks fields

/-- `guess_label(entry)` (lines 204-210): probe label keys on a mapping,
`None` otherwise. -/
def guess_label : JValue → Option String
  | .obj fields => probeKeys labelKeys fields
  | _ => none

/-- `generate_documents(source, payload)` (lines 161-183): yield
`(base_id, topic, text)` per logical document.  Lists enumerate from 1 with
`guess_label` fallback `"<source>-<idx>"`; mappings use their keys as
topics; scalars yield one `"<source>-all"` document (whose text is not
stripped, exactly as in the source). -/
def generate_documents (source : String) : JValue → List (String × String × String)
  | .arr items =>
    items.enum.map (fun p =>
      let topic := (guess_label p.2).getD (source ++ "-" ++ Nat.repr (p.1 + 1))
      let body := render_body p.2
      let base := source ++ "-" ++ slugify topic
      (base, topic, stripS ("Source: " ++ source ++ "\nTopic: " ++ topic ++ "\n\n" ++ body)))
  | .obj fields =>
    fields.map (fun kv =>
      let topic := kv.1
      let body := render_body kv.2
      let base := source ++ "-" ++ slugify topic
      (base, topic, stripS ("Source: " ++ source ++ "\nTopic: " ++ topic ++ "\n\n" ++ body)))
  | v => [(source ++ "-all", source, "Source: " ++ source ++ "\n\n" ++ pyStr v)]

/-- One chunk row, exactly the `DocumentChunk` dataclass (lines 22-28). -/
structure DocumentChunk where
  chunk_id : String
  source : String
  topic : String
  body : String
  checksum : String
deriving DecidableEq

/-- `f"{base_id}:{idx}"` (line 147): the chunk identifier. -/
def chunkId (baseId : String) (idx : Nat) : String :=
  baseId ++ ":" ++ Nat.repr idx

/-- `Path.stem` for the `*.json` files iterated by `build_chunks`: the file
name without its `.json` suffix. -/
def stem (name : String) : String :=
  name.dropRight 5

/-- The inner loop of `build_chunks` (lines 146-157) for one document:
enumerate the document's chunks from 1 and build `DocumentChunk` records.
`H` is the content fingerprint (`hashlib.sha256(body.encode()).hexdigest()`),
an external pure function taken as a parameter. -/
def doc_chunks (H : String → String) (chunkSize overlap : Nat) (sourceName : String)
    (doc : String × String × String) : Option (List DocumentChunk) :=
  (split_text doc.2.2 chunkSize overlap).map (fun parts =>
    parts.enum.map (fun p =>
      { chunk_id := chunkId doc.1 (p.1 + 1)
        source := sourceName
        topic := doc.2.1
        body := p.2
        checksum := H p.2 }))

/-- All chunks of one file's documents, in document order. -/
def docs_chunks (H : String → String) (chunkSize overlap : Nat) (sourceName : String) :
    List (String × String × String) → Option (List DocumentChunk)
  | [] => some []
  | d :: ds =>
    match doc_chunks H chunkSize overlap sourceName d,
        docs_chunks H chunkSize overlap sourceName ds with
    | some a, some b => some (a ++ b)
    | _, _ => none

/-- Chunks of one file (lines 144-157): documents come from the parsed
payload under the file's stem; the chunk `source` field is the file name. -/
def file_chunks (H : String → String) (chunkSize overlap : Nat)
    (file : String × JValue) : Option (List DocumentChunk) :=
  docs_chunks H chunkSize overlap file.1 (generate_documents (stem file.1) file.2)

/-- Ordering of directory entries by file name, as `sorted()` over `Path`
objects compares flat-directory paths (lexicographic by code point, the same
order as Python string comparison). -/
def fileLe (a b : String × JValue) : Prop :=
  a.1 ≤ b.1

instance : DecidableRel fileLe :=
  fun a b => inferInstanceAs (Decidable (a.1 ≤ b.1))

instance : IsTotal (String × JValue) fileLe :=
  ⟨fun a b => le_total a.1 b.1⟩

instance : IsTrans (String × JValue) fileLe :=
  ⟨fun _ _ _ h₁ h₂ => le_trans h₁ h₂⟩

/-- Whether a file name matches the `*.json` glob pattern: it ends with
`.json` (character-level suffix test). -/
def isJsonFile (name : String) : Bool :=
  ".json".data.isSuffixOf name.data

/-- `sorted(data_dir.glob("*.json"))` (line 143): keep the `.json` files of
the directory listing and sort them by file name. -/
def sortFiles (files : List (String × JValue)) : List (String × JValue) :=
  List.insertionSort fileLe
    (files.filter (fun f => isJsonFile f.1))

/-- Concatenate the per-file chunks over a file list, in order. -/
def files_chunks (H : String → String) (chunkSize overlap : Nat) :
    List (String × JValue) → Option (List DocumentChunk)
  | [] => some []
  | f :: fs =>
    match file_chunks H chunkSize overlap f, files_chunks H chunkSize overlap fs with
    | some a, some b => some (a ++ b)
    | _, _ => none

/-- `build_chunks(data_dir, chunk_size, overlap)` (lines 138-158) over a
directory modelled as a list of `(file name, parsed JSON)` pairs. -/
def build_chunks (H : String → String) (files : List (String × JValue))
    (chunkSize overlap : Nat) : Option (List DocumentChunk) :=
  files_chunks H chunkSize overlap (sortFiles files)

/-- All documents generated by one run, in processing order. -/
def run_documents (files : List (String × JValue)) : List (String × String × String) :=
  (sortFiles files).flatMap (fun f => generate_documents (stem f.1) f.2)

/-- The State Store content: the `id → checksum` part of the `rag_chunks`
table, as read back by `load_existing_rows` (lines 226-237). -/
abbrev Store := List (String × String)

/-- `to_delete` (line 105): previously known ids absent from the fresh chunk
set, as a sorted list of the set difference. -/
def diffDelete (existingRows : Store) (chunks : List DocumentChunk) : List String :=
  List.insertionSort (fun a b : String => a ≤ b)
    (((existingRows.map Prod.fst).dedup).filter
      (fun k => !((chunks.map DocumentChunk.chunk_id).contains k)))

/-- `to_refresh` (line 106): fresh chunks whose recorded checksum (`None`
when the id is new) differs from the computed one. -/
def diffRefresh (existingRows : Store) (chunks : List DocumentChunk) : List DocumentChunk :=
  chunks.filter (fun c => existingRows.lookup c.chunk_id != some c.checksum)

/-- `persist_sqlite(path, chunks)` (lines 240-265): inside one transaction,
delete every row and insert one row per chunk.  `id` is the PRIMARY KEY, so
a duplicate `chunk_id` aborts the transaction (`IntegrityError`, rollback):
`none` models that failure, in which case the on-disk store keeps its prior
contents.  On success the store is exactly the fresh `id → checksum` map,
independent of its prior contents. -/
def persist_sqlite (chunks : List DocumentChunk) : Option Store :=
  if (chunks.map DocumentChunk.chunk_id).Nodup then
    some (chunks.map (fun c => (c.chunk_id, c.checksum)))
  else none

/-- Recursion core of `chunked`, structural on a fuel bound: each step emits
`l[:size]` and recurses on `l[size:]`.  Fuel `l.length + 1` always suffices
because each step with a positive size consumes at least one element. -/
def chunkedFuel : Nat → List α → Nat → List (List α)
  | 0, _, _ => []
  | _ + 1, [], _ => []
  | _ + 1, _ :: _, 0 => []
  | f + 1, a :: as, s + 1 =>
    (a :: as).take (s + 1) :: chunkedFuel f ((a :: as).drop (s + 1)) (s + 1)

/-- `chunked(sequence, size)` (lines 365-367): successive slices
`sequence[start:start+size]` for `start = 0, size, 2*size, …`.  The source
raises `ValueError` for `size = 0` (zero `range` step); every theorem below
assumes `0 < size`. -/
def chunked (l : List α) (size : Nat) : List (List α) :=
  chunkedFuel (l.length + 1) l size

/-- The embedding client's fixed batch size (`OpenAIEmbeddings.batch_size`,
line 296: default 32, and `main` constructs it with the default). -/
def embedBatchSize : Nat := 32

/-- Number of remote HTTP requests issued by a run for given refresh and
delete sets (lines 129-132): `upsert_chunks` early-returns on an empty
refresh set (lines 273-275), otherwise `embed` posts one request per batch
of 32 texts (lines 303-312) and `PineconeClient.upsert` one per batch of
`batch_size` vectors (lines 331-340); `PineconeClient.delete` is called only
for a non-empty delete set (lines 131-132) and posts exactly one request
(lines 344-356). -/
def remoteRequestCount (toRefresh : List DocumentChunk) (toDelete : List String)
    (pineconeBatch : Nat) : Nat :=
  (if toRefresh = [] then 0
   else (chunked (toRefresh.map DocumentChunk.body) embedBatchSize).length
     + (chunked toRefresh pineconeBatch).length)
  + (if toDelete = [] then 0 else 1)

/-- Whether every remote request of the run succeeds, with per-request
outcome oracles (`embedOk i` / `upsertOk i` for the `i`-th batch).  Any
non-success status raises `SystemExit` (lines 313-316, 341-342, 355-356),
so the run's remote phase succeeds exactly when all issued requests do. -/
def remoteOK (embedOk upsertOk : Nat → Bool) (deleteOk : Bool)
    (toRefresh : List DocumentChunk) (toDelete : List String)
    (pineconeBatch : Nat) : Bool :=
  (if toRefresh = [] then true
   else
     (List.range (chunked (toRefresh.map DocumentChunk.body) embedBatchSize).length).all embedOk
       && (List.range (chunked toRefresh pineconeBatch).length).all upsertOk)
    && (if toDelete = [] then true else deleteOk)

/-- One `main` run after `build_chunks` (lines 104-134), over an outcome
oracle for the remote requests: diff against the old store, run the remote
phase, and only then rewrite the store (`persist_sqlite`, line 134).  A
failed remote request exits the process before `persist_sqlite`, and a
failed persist rolls back, so in both failure cases the store keeps its
prior contents.  Returns the resulting store contents and whether the run
succeeded. -/
def runOnce (embedOk upsertOk : Nat → Bool) (deleteOk : Bool)
    (oldStore : Store) (chunks : List DocumentChunk) (pineconeBatch : Nat) :
    Store × Bool :=
  if remoteOK embedOk upsertOk deleteOk (diffRefresh oldStore chunks)
      (diffDelete oldStore chunks) pineconeBatch then
    match persist_sqlite chunks with
    | some st => (st, true)
    | none => (oldStore, false)
  else (oldStore, false)

/-- The vector batches sent by `PineconeClient.upsert` (lines 329-342): one
remote request per `chunked(vectors, batch_size)` batch. -/
def pinecone_upsert_requests (vectors : List α) (batchSize : Nat) : List (List α) :=
  chunked vectors batchSize

/-- The id lists sent by `PineconeClient.delete` (lines 344-356): a single
request carrying every id. -/
def pinecone_delete_requests (ids : List String) : List (List String) :=
  [ids]

/-! ### Helper lemmas: stripping -/

theorem dropWhile_dropWhile (p : Char → Bool) (l : List Char) :
    List.dropWhile p (List.dropWhile p l) = List.dropWhile p l := by
  induction l with
  | nil => rfl
  | cons a t ih => by_cases h : p a = true <;> simp [List.dropWhile_cons, h, ih]

theorem dropWhile_cons_false {p : Char → Bool} :
    ∀ {l : List Char} {a : Char} {m : List Char},
      List.dropWhile p l = a :: m → p a = false := by
  intro l
  induction l with
  | nil => intro a m h; cases h
  | cons x t ih =>
    intro a m h
    by_cases hx : p x = true
    · rw [List.dropWhile_cons, if_pos hx] at h
      exact ih h
    · rw [List.dropWhile_cons, if_neg hx] at h
      cases h
      simpa using hx

theorem stripL_append_of_dropWhile (l : List Char) :
    ∃ t, l.dropWhile pyWS = stripL l ++ t := by
  refine ⟨((l.dropWhile pyWS).reverse.takeWhile pyWS).reverse, ?_⟩
  conv_lhs => rw [← (l.dropWhile pyWS).reverse_reverse,
    ← List.takeWhile_append_dropWhile pyWS (l.dropWhile pyWS).reverse,
    List.reverse_append]
  rfl

theorem stripL_dropWhile (l : List Char) :
    (stripL l).dropWhile pyWS = stripL l := by
  obtain ⟨t, ht⟩ := stripL_append_of_dropWhile l
  cases h : stripL l with
  | nil => rfl
  | cons a m =>
    have hd : l.dropWhile pyWS = a :: (m ++ t) := by
      rw [ht, h]; rfl
    have hfa : pyWS a = false := dropWhile_cons_false hd
    rw [List.dropWhile_cons, if_neg (by simp [hfa])]

theorem stripL_idem (l : List Char) : stripL (stripL l) = stripL l := by
  show (((stripL l).dropWhile pyWS).reverse.dropWhile pyWS).reverse = stripL l
  rw [stripL_dropWhile]
  show ((((l.dropWhile pyWS).reverse.dropWhile pyWS).reverse).reverse.dropWhile pyWS).reverse
    = stripL l
  rw [List.reverse_reverse, dropWhile_dropWhile]
  rfl

theorem stripS_idem (s : String) : stripS (stripS s) = stripS s := by
  apply String.ext
  simp [stripS, stripL_idem]

theorem dropWhile_eq_self_of_none (p : Char → Bool) (l : List Char)
    (h : ∀ c ∈ l, p c = false) : l.dropWhile p = l := by
  cases l with
  | nil => rfl
  | cons a t => simp [List.dropWhile_cons, h a (by simp)]

theorem stripL_eq_self_of_no_ws (l : List Char) (h : ∀ c ∈ l, pyWS c = false) :
    stripL l = l := by
  rw [stripL, dropWhile_eq_self_of_none pyWS l h,
    dropWhile_eq_self_of_none pyWS l.reverse (fun c hc => h c (List.mem_reverse.1 hc)),
    List.reverse_reverse]

/-! ### Helper lemmas: association-list lookup (the `id → checksum` table) -/

theorem lookup_eq_some_of_mem {l : Store} (hn : (l.map Prod.fst).Nodup)
    {k v : String} (hm : (k, v) ∈ l) : l.lookup k = some v := by
  induction l with
  | nil => cases hm
  | cons a t ih =>
    cases a with
    | mk a1 a2 =>
      rw [List.lookup_cons]
      rcases List.mem_cons.1 hm with h | h
      · have h1 : k = a1 := congrArg Prod.fst h
        have h2 : v = a2 := congrArg Prod.snd h
        subst h1; subst h2
        simp
      · have hk : k ∈ t.map Prod.fst := List.mem_map.2 ⟨(k, v), h, rfl⟩
        have hne : (k == a1) = false := by
          have ha : a1 ∉ t.map Prod.fst := by
            simpa using (List.nodup_cons.1 hn).1
          have : k ≠ a1 := fun he => ha (he ▸ hk)
          simpa using this
        rw [hne]
        exact ih (List.nodup_cons.1 hn).2 h

theorem mem_of_lookup_eq_some {l : Store} {k v : String}
    (h : l.lookup k = some v) : (k, v) ∈ l := by
  induction l with
  | nil => cases h
  | cons a t ih =>
    cases a with
    | mk a1 a2 =>
      rw [List.lookup_cons] at h
      cases hbe : (k == a1) with
      | true =>
        rw [hbe] at h
        have h1 : k = a1 := by simpa using hbe
        have h2 : a2 = v := by simpa using h
        rw [h1, h2]
        simp
      | false =>
        rw [hbe] at h
        exact List.mem_cons_of_mem _ (ih h)

/-! ### Helper lemmas: decimal digits and `chunk_id` injectivity -/

theorem digitChar_ne_colon (m : Nat) : Nat.digitChar m ≠ ':' := by
  by_cases hm : m < 16
  · exact (by decide : ∀ k, k < 16 → Nat.digitChar k ≠ ':') m hm
  · have h : Nat.digitChar m = '*' := by
      unfold Nat.digitChar
      repeat rw [if_neg (by omega)]
    rw [h]; decide

theorem toDigitsCore_ne_colon (fuel : Nat) :
    ∀ (n : Nat) (ds : List Char), (∀ c ∈ ds, c ≠ ':') →
      ∀ c ∈ Nat.toDigitsCore 10 fuel n ds, c ≠ ':' := by
  induction fuel with
  | zero => intro n ds hds c hc; exact hds c hc
  | succ f ih =>
    intro n ds hds c hc
    simp only [Nat.toDigitsCore] at hc
    by_cases h0 : n / 10 = 0
    · rw [if_pos h0] at hc
      rcases List.mem_cons.1 hc with h | h
      · rw [h]; exact digitChar_ne_colon _
      · exact hds c h
    · rw [if_neg h0] at hc
      refine ih (n / 10) (Nat.digitChar (n % 10) :: ds) ?_ c hc
      intro d hd
      rcases List.mem_cons.1 hd with h | h
      · rw [h]; exact digitChar_ne_colon _
      · exact hds d h

theorem repr_data_eq (n : Nat) : (Nat.repr n).data = Nat.toDigitsCore 10 (n + 1) n [] :=
  rfl

theorem repr_ne_colon (n : Nat) : ∀ c ∈ (Nat.repr n).data, c ≠ ':' := by
  rw [repr_data_eq]
  exact toDigitsCore_ne_colon (n + 1) n [] (by simp)

/-- Decimal evaluation of a digit-character list, used to invert `Nat.repr`. -/
def decodeDigits (l : List Char) : Nat :=
  l.foldl (fun a c => 10 * a + (c.toNat - 48)) 0

theorem toDigitsCore_append (fuel : Nat) :
    ∀ (n : Nat) (ds : List Char),
      Nat.toDigitsCore 10 fuel n ds = Nat.toDigitsCore 10 fuel n [] ++ ds := by
  induction fuel with
  | zero => intro n ds; simp [Nat.toDigitsCore]
  | succ f ih =>
    intro n ds
    simp only [Nat.toDigitsCore]
    by_cases h0 : n / 10 = 0
    · rw [if_pos h0, if_pos h0]
      rfl
    · rw [if_neg h0, if_neg h0, ih (n / 10) (Nat.digitChar (n % 10) :: ds),
        ih (n / 10) [Nat.digitChar (n % 10)], List.append_assoc]
      rfl

theorem decode_toDigitsCore (fuel : Nat) :
    ∀ n : Nat, n < fuel → decodeDigits (Nat.toDigitsCore 10 fuel n []) = n := by
  induction fuel with
  | zero => intro n h; omega
  | succ f ih =>
    intro n hn
    simp only [Nat.toDigitsCore]
    have hd : ∀ m : Nat, m < 10 → (Nat.digitChar m).toNat - 48 = m := by decide
    by_cases h0 : n / 10 = 0
    · rw [if_pos h0]
      have : decodeDigits [Nat.digitChar (n % 10)] = n % 10 := by
        simp [decodeDigits, hd (n % 10) (Nat.mod_lt _ (by decide))]
      rw [this]
      omega
    · rw [if_neg h0, toDigitsCore_append f (n / 10) [Nat.digitChar (n % 10)]]
      have hdec : decodeDigits (Nat.toDigitsCore 10 f (n / 10) [] ++ [Nat.digitChar (n % 10)])
          = 10 * decodeDigits (Nat.toDigitsCore 10 f (n / 10) []) + (n % 10) := by
        simp [decodeDigits, List.foldl_append, hd (n % 10) (Nat.mod_lt _ (by decide))]
      rw [hdec, ih (n / 10) (by omega)]
      omega

theorem nat_repr_injective {m n : Nat} (h : Nat.repr m = Nat.repr n) : m = n := by
  have hd : (Nat.repr m).data = (Nat.repr n).data := by rw [h]
  rw [repr_data_eq, repr_data_eq] at hd
  have hm := decode_toDigitsCore (m + 1) m (by omega)
  have hn := decode_toDigitsCore (n + 1) n (by omega)
  rw [← hm, ← hn, hd]

theorem append_colon_inj :
    ∀ (l₁ : List Char) {l₂ r₁ r₂ : List Char},
      (∀ c ∈ l₁, c ≠ ':') → (∀ c ∈ l₂, c ≠ ':') →
      l₁ ++ ':' :: r₁ = l₂ ++ ':' :: r₂ → l₁ = l₂ ∧ r₁ = r₂ := by
  intro l₁
  induction l₁ with
  | nil =>
    intro l₂ r₁ r₂ _ h₂ he
    cases l₂ with
    | nil => simpa using he
    | cons b t =>
      simp only [List.nil_append, List.cons_append, List.cons.injEq] at he
      exact absurd he.1.symm (h₂ b (by simp))
  | cons a s ih =>
    intro l₂ r₁ r₂ h₁ h₂ he
    cases l₂ with
    | nil =>
      simp only [List.nil_append, List.cons_append, List.cons.injEq] at he
      exact absurd he.1 (h₁ a (by simp))
    | cons b t =>
      simp only [List.cons_append, List.cons.injEq] at he
      obtain ⟨hab, htail⟩ := he
      obtain ⟨hst, hr⟩ := ih (fun c hc => h₁ c (by simp [hc]))
        (fun c hc => h₂ c (by simp [hc])) htail
      exact ⟨by rw [hab, hst], hr⟩

theorem chunkedFuel_length_le {α : Type} :
    ∀ (f : Nat) (l : List α) (s : Nat), ∀ b ∈ chunkedFuel f l s, b.length ≤ s := by
  intro f
  induction f with
  | zero => intro l s b hb; simp [chunkedFuel] at hb
  | succ f ih =>
    intro l s b hb
    cases l with
    | nil => simp [chunkedFuel] at hb
    | cons a as =>
      cases s with
      | zero => simp [chunkedFuel] at hb
      | succ s =>
        rw [chunkedFuel] at hb
        rcases List.mem_cons.1 hb with h | h
        · rw [h, List.length_take]
          omega
        · exact ih ((a :: as).drop (s + 1)) (s + 1) b h

theorem chunked_length_le {α : Type} (l : List α) (s : Nat) :
    ∀ b ∈ chunked l s, b.length ≤ s :=
  chunkedFuel_length_le (l.length + 1) l s

/-! ### Helper lemmas: the split loop -/

theorem rangesLoop_terminates (textLen chunkSize overlap : Nat) (hov : overlap < chunkSize) :
    ∀ (fuel start e : Nat), textLen - e < fuel → e ≤ textLen → start < textLen →
      ∃ rs, rangesLoop fuel textLen chunkSize overlap start e = some rs ∧
        rs.countP (fun r => r.2 == textLen) = 1 ∧
        rs.getLast?.map Prod.snd = some textLen := by
  intro fuel
  induction fuel with
  | zero => intro start e hf _ _; omega
  | succ f ih =>
    intro start e hf he hstart
    rw [rangesLoop, if_pos hstart]
    by_cases hend : textLen ≤ e
    · have heq : e = textLen := le_antisymm he hend
      rw [if_pos hend]
      refine ⟨[(start, e)], rfl, ?_, ?_⟩
      · simp [heq]
      · simp [heq]
    · rw [if_neg hend]
      have hestep : e < min textLen (e - overlap + chunkSize) := by omega
      obtain ⟨rest, hrest, hcount, hlast⟩ :=
        ih (e - overlap) (min textLen (e - overlap + chunkSize))
          (by omega) (by omega) (by omega)
      rw [hrest]
      refine ⟨(start, e) :: rest, rfl, ?_, ?_⟩
      · have hne : (e == textLen) = false := by
          simp only [beq_eq_false_iff_ne]
          omega
        simp only [List.countP_cons, hne]
        simpa using hcount
      · have hrne : rest ≠ [] := by
          intro hnil
          rw [hnil] at hcount
          simp [List.countP_nil] at hcount
        cases rest with
        | nil => exact absurd rfl hrne
        | cons r rs' => rw [List.getLast?_cons_cons]; exact hlast

theorem chunksLoop_fixpoint_ab : ∀ fuel, chunksLoop fuel "ab".data 1 1 0 1 = none := by
  intro fuel
  induction fuel with
  | zero => rfl
  | succ f ih =>
    rw [chunksLoop]
    have h1 : (0 < "ab".data.length) := by decide
    have h2 : ¬ ("ab".data.length ≤ 1) := by decide
    rw [if_pos h1, if_neg h2]
    have : (1 - 1 : Nat) = 0 := rfl
    have hmin : min "ab".data.length (1 - 1 + 1) = 1 := by decide
    rw [this] at hmin ⊢
    rw [hmin, ih]

theorem chunksLoop_eq_rangesLoop (text : List Char) (chunkSize overlap : Nat) :
    ∀ (fuel start e : Nat),
      chunksLoop fuel text chunkSize overlap start e =
        (rangesLoop fuel text.length chunkSize overlap start e).map
          (List.map (fun r => stripL (listSlice text r.1 r.2))) := by
  intro fuel
  induction fuel with
  | zero => intro start e; rfl
  | succ f ih =>
    intro start e
    rw [chunksLoop, rangesLoop]
    by_cases hstart : start < text.length
    · rw [if_pos hstart, if_pos hstart]
      by_cases hend : text.length ≤ e
      · rw [if_pos hend, if_pos hend]
        rfl
      · rw [if_neg hend, if_neg hend, ih]
        cases rangesLoop f text.length chunkSize overlap (e - overlap)
            (min text.length (e - overlap + chunkSize)) with
        | none => rfl
        | some rest => rfl
    · rw [if_neg hstart, if_neg hstart]
      rfl

theorem chunksLoop_elems_stripped :
    ∀ (fuel : Nat) (text : List Char) (chunkSize overlap start e : Nat) (out : List (List Char)),
      chunksLoop fuel text chunkSize overlap start e = some out →
      ∀ m ∈ out, ∃ u, m = stripL u := by
  intro fuel
  induction fuel with
  | zero => intro text cs ov start e out h; cases h
  | succ f ih =>
    intro text cs ov start e out h m hm
    rw [chunksLoop] at h
    by_cases hstart : start < text.length
    · rw [if_pos hstart] at h
      by_cases hend : text.length ≤ e
      · rw [if_pos hend] at h
        cases h
        rcases List.mem_singleton.1 hm with h
        exact ⟨listSlice text start e, h⟩
      · rw [if_neg hend] at h
        cases hrec : chunksLoop f text cs ov (e - ov) (min text.length (e - ov + cs)) with
        | none => rw [hrec] at h; cases h
        | some rest =>
          rw [hrec] at h
          cases h
          rcases List.mem_cons.1 hm with h | h
          · exact ⟨listSlice text start e, h⟩
          · exact ih text cs ov _ _ rest hrec m h
    · rw [if_neg hstart] at h
      cases h
      cases hm

theorem chunkId_inj {b₁ b₂ : String} {i₁ i₂ : Nat}
    (h : chunkId b₁ i₁ = chunkId b₂ i₂) : b₁ = b₂ ∧ i₁ = i₂ := by
  have hd : b₁.data ++ ':' :: (Nat.repr i₁).data
      = b₂.data ++ ':' :: (Nat.repr i₂).data := by
    have := congrArg String.data h
    simpa [chunkId, String.data_append] using this
  have hrev : (Nat.repr i₁).data.reverse ++ ':' :: b₁.data.reverse
      = (Nat.repr i₂).data.reverse ++ ':' :: b₂.data.reverse := by
    have := congrArg List.reverse hd
    simpa [List.reverse_append] using this
  obtain ⟨hdig, hbase⟩ := append_colon_inj _
    (fun c hc => repr_ne_colon i₁ c (List.mem_reverse.1 hc))
    (fun c hc => repr_ne_colon i₂ c (List.mem_reverse.1 hc)) hrev
  constructor
  · exact String.ext (by
      have := congrArg List.reverse hbase
      simpa using this)
  · exact nat_repr_injective (String.ext (by
      have := congrArg List.reverse hdig
      simpa using this))


theorem sortFiles_eq_of_perm (files₁ files₂ : List (String × JValue))
    (hp : files₁.Perm files₂) (hn : (files₁.map Prod.fst).Nodup) :
    sortFiles files₁ = sortFiles files₂ := by
  have hperm : (files₁.filter (fun f => isJsonFile f.1)).Perm
      (files₂.filter (fun f => isJsonFile f.1)) := hp.filter _
  have hs₁ : (sortFiles files₁).Perm (files₁.filter (fun f => isJsonFile f.1)) :=
    List.perm_insertionSort fileLe _
  have hs₂ : (sortFiles files₂).Perm (files₂.filter (fun f => isJsonFile f.1)) :=
    List.perm_insertionSort fileLe _
  have hpp : (sortFiles files₁).Perm (sortFiles files₂) :=
    (hs₁.trans hperm).trans hs₂.symm
  have hn₁ : ((sortFiles files₁).map Prod.fst).Nodup := by
    have hsub : (files₁.filter (fun f => isJsonFile f.1)).Sublist files₁ :=
      List.filter_sublist files₁
    have hfn : ((files₁.filter (fun f => isJsonFile f.1)).map Prod.fst).Nodup :=
      List.Nodup.sublist (hsub.map Prod.fst) hn
    exact ((hs₁.map Prod.fst).nodup_iff).2 hfn
  have hn₂ : ((sortFiles files₂).map Prod.fst).Nodup :=
    ((hpp.map Prod.fst).nodup_iff).1 hn₁
  have hlt : ∀ (l : List (String × JValue)), List.Sorted fileLe l →
      (l.map Prod.fst).Nodup →
      List.Sorted (fun a b : String × JValue => a.1 < b.1) l := by
    intro l hle hnod
    have hne : List.Pairwise (fun a b : String × JValue => a.1 ≠ b.1) l :=
      List.pairwise_map.1 hnod
    exact (hle.and hne).imp (fun h => lt_of_le_of_ne h.1 h.2)
  haveI : IsAntisymm (String × JValue) (fun a b => a.1 < b.1) :=
    ⟨fun _ _ h₁ h₂ => absurd h₂ (lt_asymm h₁)⟩
  exact List.eq_of_perm_of_sorted hpp
    (hlt _ (List.sorted_insertionSort fileLe _) hn₁)
    (hlt _ (List.sorted_insertionSort fileLe _) hn₂)

/-! ### Helper lemmas: chunk-id shape of the build output -/

theorem doc_chunks_ids (H : String → String) (cs ov : Nat) (src : String)
    (d : String × String × String) (a : List DocumentChunk)
    (h : doc_chunks H cs ov src d = some a) :
    (a.map DocumentChunk.chunk_id).Nodup ∧
      ∀ s ∈ a.map DocumentChunk.chunk_id, ∃ i, s = chunkId d.1 i := by
  unfold doc_chunks at h
  cases hsp : split_text d.2.2 cs ov with
  | none => rw [hsp] at h; cases h
  | some parts =>
    rw [hsp] at h
    cases h
    constructor
    · rw [List.map_map]
      show ((parts.enum.map (fun p : Nat × String => chunkId d.1 (p.1 + 1)))).Nodup
      have hco : (fun p : Nat × String => chunkId d.1 (p.1 + 1))
          = (fun i : Nat => chunkId d.1 (i + 1)) ∘ Prod.fst := rfl
      rw [hco, ← List.map_map, List.enum_map_fst]
      refine List.Nodup.map ?_ (List.nodup_range _)
      intro i j hij
      have := (chunkId_inj hij).2
      omega
    · intro s hs
      rw [List.map_map] at hs
      obtain ⟨p, _, hp⟩ := List.mem_map.1 hs
      exact ⟨p.1 + 1, hp.symm⟩

theorem docs_chunks_ids (H : String → String) (cs ov : Nat) (src : String) :
    ∀ (ds : List (String × String × String)) (a : List DocumentChunk),
      docs_chunks H cs ov src ds = some a →
      (∀ s ∈ a.map DocumentChunk.chunk_id, ∃ d ∈ ds, ∃ i, s = chunkId d.1 i) ∧
      ((ds.map (fun d => d.1)).Nodup → (a.map DocumentChunk.chunk_id).Nodup) := by
  intro ds
  induction ds with
  | nil =>
    intro a h
    cases h
    simp
  | cons d ds ih =>
    intro a h
    cases h₁ : doc_chunks H cs ov src d with
    | none => rw [docs_chunks, h₁] at h; cases h
    | some a₁ =>
      cases h₂ : docs_chunks H cs ov src ds with
      | none => rw [docs_chunks, h₁, h₂] at h; cases h
      | some a₂ =>
        rw [docs_chunks, h₁, h₂] at h
        cases h
        obtain ⟨hd_nodup, hd_shape⟩ := doc_chunks_ids H cs ov src d a₁ h₁
        obtain ⟨ih_shape, ih_nodup⟩ := ih a₂ h₂
        constructor
        · intro s hs
          rw [List.map_append] at hs
          rcases List.mem_append.1 hs with hmem | hmem
          · obtain ⟨i, hi⟩ := hd_shape s hmem
            exact ⟨d, by simp, i, hi⟩
          · obtain ⟨d', hd', i, hi⟩ := ih_shape s hmem
            exact ⟨d', by simp [hd'], i, hi⟩
        · intro hn
          rw [List.map_cons, List.nodup_cons] at hn
          have hn' : d.1 ∉ ds.map (fun x => x.1) ∧ (ds.map (fun x => x.1)).Nodup := hn
          rw [List.map_append, List.nodup_append]
          refine ⟨hd_nodup, ih_nodup hn'.2, ?_⟩
          intro s hs₁ hs₂
          obtain ⟨i, hi⟩ := hd_shape s hs₁
          obtain ⟨d', hd', j, hj⟩ := ih_shape s hs₂
          have hbase : d.1 = d'.1 := by
            rw [hi] at hj
            exact (chunkId_inj hj).1
          exact hn'.1 (List.mem_map.2 ⟨d', hd', hbase.symm⟩)

theorem files_chunks_ids (H : String → String) (cs ov : Nat) :
    ∀ (fs : List (String × JValue)) (a : List DocumentChunk),
      files_chunks H cs ov fs = some a →
      (∀ s ∈ a.map DocumentChunk.chunk_id,
        ∃ d ∈ fs.flatMap (fun f => generate_documents (stem f.1) f.2), ∃ i, s = chunkId d.1 i) ∧
      (((fs.flatMap (fun f => generate_documents (stem f.1) f.2)).map (fun d => d.1)).Nodup →
        (a.map DocumentChunk.chunk_id).Nodup) := by
  intro fs
  induction fs with
  | nil =>
    intro a h
    cases h
    simp
  | cons f fs ih =>
    intro a h
    cases h₁ : file_chunks H cs ov f with
    | none => rw [files_chunks, h₁] at h; cases h
    | some a₁ =>
      cases h₂ : files_chunks H cs ov fs with
      | none => rw [files_chunks, h₁, h₂] at h; cases h
      | some a₂ =>
        rw [files_chunks, h₁, h₂] at h
        cases h
        obtain ⟨hd_shape, hd_nodup⟩ :=
          docs_chunks_ids H cs ov f.1 (generate_documents (stem f.1) f.2) a₁ h₁
        obtain ⟨ih_shape, ih_nodup⟩ := ih a₂ h₂
        constructor
        · intro s hs
          rw [List.map_append] at hs
          rcases List.mem_append.1 hs with hmem | hmem
          · obtain ⟨d, hd, i, hi⟩ := hd_shape s hmem
            exact ⟨d, by simp [List.flatMap_cons, hd], i, hi⟩
          · obtain ⟨d, hd, i, hi⟩ := ih_shape s hmem
            exact ⟨d, by simp [List.flatMap_cons, hd], i, hi⟩
        · intro hn
          rw [List.flatMap_cons, List.map_append, List.nodup_append] at hn
          obtain ⟨hnl, hnr, hdisj⟩ := hn
          rw [List.map_append, List.nodup_append]
          refine ⟨hd_nodup hnl, ih_nodup hnr, ?_⟩
          intro s hs₁ hs₂
          obtain ⟨d, hd, i, hi⟩ := hd_shape s hs₁
          obtain ⟨d', hd', j, hj⟩ := ih_shape s hs₂
          have hbase : d.1 = d'.1 := by
            rw [hi] at hj
            exact (chunkId_inj hj).1
          exact hdisj (List.mem_map.2 ⟨d, hd, rfl⟩)
            (List.mem_map.2 ⟨d', hd', hbase.symm⟩)

/-! ### Helper lemmas: diff engine and persistence -/

theorem mem_diffDelete_iff (existingRows : Store) (chunks : List DocumentChunk)
    (k : String) :
    k ∈ diffDelete existingRows chunks ↔
      k ∈ existingRows.map Prod.fst ∧ k ∉ chunks.map DocumentChunk.chunk_id := by
  unfold diffDelete
  rw [List.mem_insertionSort, List.mem_filter, List.mem_dedup]
  simp

theorem diffDelete_sorted (existingRows : Store) (chunks : List DocumentChunk) :
    (diffDelete existingRows chunks).Sorted (· ≤ ·) :=
  List.sorted_insertionSort _ _

theorem diffDelete_nodup (existingRows : Store) (chunks : List DocumentChunk) :
    (diffDelete existingRows chunks).Nodup := by
  unfold diffDelete
  refine ((List.perm_insertionSort _ _).nodup_iff).2 ?_
  exact List.Nodup.filter _ (List.nodup_dedup _)

theorem mem_diffRefresh_iff (existingRows : Store) (chunks : List DocumentChunk)
    (c : DocumentChunk) :
    c ∈ diffRefresh existingRows chunks ↔
      c ∈ chunks ∧ existingRows.lookup c.chunk_id ≠ some c.checksum := by
  unfold diffRefresh
  rw [List.mem_filter]
  simp

theorem persist_sqlite_nodup {chunks : List DocumentChunk} {st : Store}
    (h : persist_sqlite chunks = some st) :
    (chunks.map DocumentChunk.chunk_id).Nodup ∧
      st = chunks.map (fun c => (c.chunk_id, c.checksum)) := by
  by_cases hn : (chunks.map DocumentChunk.chunk_id).Nodup
  · rw [persist_sqlite, if_pos hn] at h
    exact ⟨hn, (Option.some.inj h).symm⟩
  · rw [persist_sqlite, if_neg hn] at h
    cases h

theorem persist_sqlite_keys {chunks : List DocumentChunk} {st : Store}
    (h : persist_sqlite chunks = some st) :
    st.map Prod.fst = chunks.map DocumentChunk.chunk_id := by
  obtain ⟨-, hst⟩ := persist_sqlite_nodup h
  rw [hst, List.map_map]
  rfl

/-! ### Helper lemmas: whitespace texts and slices -/

theorem dropWhile_replicate_space (k : Nat) :
    List.dropWhile pyWS (List.replicate k ' ') = [] := by
  induction k with
  | zero => rfl
  | succ n ih =>
    rw [List.replicate_succ, List.dropWhile_cons, if_pos (by rfl)]
    exact ih

theorem stripL_replicate_space (k : Nat) :
    stripL (List.replicate k ' ') = [] := by
  rw [stripL, dropWhile_replicate_space]
  rfl

theorem mem_of_mem_listSlice {l : List Char} {a b : Nat} {c : Char}
    (h : c ∈ listSlice l a b) : c ∈ l :=
  List.mem_of_mem_take (List.mem_of_mem_drop h)

theorem length_listSlice (l : List Char) (a b : Nat) :
    (listSlice l a b).length = min b l.length - a := by
  rw [listSlice, List.length_drop, List.length_take]

/-! ### Claims -/

/-- C1: Idempotence of the pipeline.  For every fixed set of input documents
(any directory contents `files`), if a run completes successfully — so the
State Store was rewritten to the fresh chunk set by `persist_sqlite` — then
a second run over the unchanged documents computes an empty `to_delete` and
an empty `to_refresh`, and therefore issues zero remote embedding, upsert,
or delete requests. -/
theorem c1_idempotent_second_run
    (H : String → String) (files : List (String × JValue)) (chunkSize overlap : Nat)
    (chunks : List DocumentChunk) (st : Store) (pineconeBatch : Nat)
    (hbuild : build_chunks H files chunkSize overlap = some chunks)
    (hpersist : persist_sqlite chunks = some st) :
    diffDelete st chunks = [] ∧ diffRefresh st chunks = [] ∧
      remoteRequestCount (diffRefresh st chunks) (diffDelete st chunks) pineconeBatch = 0 := by
  obtain ⟨hnodup, hst⟩ := persist_sqlite_nodup hpersist
  have hkeys : st.map Prod.fst = chunks.map DocumentChunk.chunk_id :=
    persist_sqlite_keys hpersist
  have hdel : diffDelete st chunks = [] := by
    unfold diffDelete
    have hfilter : ((st.map Prod.fst).dedup).filter
        (fun k => !((chunks.map DocumentChunk.chunk_id).contains k)) = [] := by
      rw [List.filter_eq_nil_iff]
      intro k hk
      have hmem : k ∈ chunks.map DocumentChunk.chunk_id := by
        rw [← hkeys]
        exact List.mem_dedup.1 hk
      simp [hmem]
    rw [hfilter]
    rfl
  have href : diffRefresh st chunks = [] := by
    unfold diffRefresh
    rw [List.filter_eq_nil_iff]
    intro c hc
    have hmem : (c.chunk_id, c.checksum) ∈ st := by
      rw [hst]
      exact List.mem_map.2 ⟨c, hc, rfl⟩
    have hlook : st.lookup c.chunk_id = some c.checksum :=
      lookup_eq_some_of_mem (by rw [hkeys]; exact hnodup) hmem
    simp [hlook]
  refine ⟨hdel, href, ?_⟩
  rw [hdel, href]
  rfl

/-- Concrete single-file document set for the C1 witness. -/
def c1Files : List (String × JValue) :=
  [("faq.json", .obj [("greeting", .str "hello")])]

/-- The chunks computed from `c1Files` (one chunk). -/
def c1Chunks : List DocumentChunk :=
  (build_chunks (fun s => s) c1Files 900 150).getD []

/-- The store persisted from `c1Chunks`. -/
def c1Store : Store :=
  (persist_sqlite c1Chunks).getD []

/-- Witness for C1 at a concrete document set: the second run's diff is
empty and no remote request is issued. -/
theorem c1_idempotent_second_run_witness :
    diffDelete c1Store c1Chunks = [] ∧ diffRefresh c1Store c1Chunks = [] ∧
      remoteRequestCount (diffRefresh c1Store c1Chunks) (diffDelete c1Store c1Chunks) 32 = 0 :=
  c1_idempotent_second_run (fun s => s) c1Files 900 150 c1Chunks c1Store 32
    (by decide) (by decide)

/-- C2: Atomicity of local state on remote failure.  If any remote request
of the run fails (`remoteOK … = false`), the run aborts with failure and the
State Store keeps exactly the previous run's contents; conversely the store
is rewritten (successful run) only when every remote request of the run
completed without error, and then it equals the fresh chunk map. -/
theorem c2_remote_failure_preserves_store
    (embedOk upsertOk : Nat → Bool) (deleteOk : Bool) (oldStore : Store)
    (chunks : List DocumentChunk) (pineconeBatch : Nat) :
    (remoteOK embedOk upsertOk deleteOk (diffRefresh oldStore chunks)
        (diffDelete oldStore chunks) pineconeBatch = false →
      runOnce embedOk upsertOk deleteOk oldStore chunks pineconeBatch = (oldStore, false)) ∧
    ((runOnce embedOk upsertOk deleteOk oldStore chunks pineconeBatch).2 = true →
      remoteOK embedOk upsertOk deleteOk (diffRefresh oldStore chunks)
          (diffDelete oldStore chunks) pineconeBatch = true ∧
      persist_sqlite chunks =
        some (runOnce embedOk upsertOk deleteOk oldStore chunks pineconeBatch).1) := by
  constructor
  · intro h
    simp [runOnce, h]
  · intro h
    by_cases hok : remoteOK embedOk upsertOk deleteOk (diffRefresh oldStore chunks)
        (diffDelete oldStore chunks) pineconeBatch = true
    · refine ⟨hok, ?_⟩
      cases hp : persist_sqlite chunks with
      | none => simp [runOnce, hok, hp] at h
      | some st => simp [runOnce, hok, hp]
    · rw [runOnce, if_neg hok] at h
      cases h

/-- Prior store used by the C2 witness: one stale chunk id `"Z"`. -/
def c2OldStore : Store :=
  [("Z", "h")]

/-- Witness for C2 at a concrete run: the delete request fails, the run
returns failure, and the store keeps its previous contents. -/
theorem c2_remote_failure_preserves_store_witness :
    runOnce (fun _ => true) (fun _ => true) false c2OldStore [] 32 = (c2OldStore, false) :=
  (c2_remote_failure_preserves_store (fun _ => true) (fun _ => true) false
    c2OldStore [] 32).1 (by decide)

/-- Prior synchronization state `{A: h1, B: h2}` of the C5 boundary case. -/
def c5PriorStore : Store :=
  [("A", "h1"), ("B", "h2")]

/-- Fresh chunk `A` with unchanged checksum `h1` of the C5 boundary case. -/
def c5ChunkA : DocumentChunk :=
  { chunk_id := "A", source := "data.json", topic := "t", body := "b", checksum := "h1" }

/-- C5: Diff classification.  `to_delete` is exactly the sorted duplicate-free
list of previously known ids absent from the fresh set, `to_refresh` is
exactly the fresh chunks whose id is new or whose checksum changed, and on
the boundary case with prior state `{A: h1, B: h2}` and fresh set `{A: h1}`
the diff is `to_delete = ["B"]`, `to_refresh = []`. -/
theorem c5_diff_classification :
    (∀ (existingRows : Store) (chunks : List DocumentChunk),
      (∀ k, k ∈ diffDelete existingRows chunks ↔
        (k ∈ existingRows.map Prod.fst ∧ k ∉ chunks.map DocumentChunk.chunk_id)) ∧
      (diffDelete existingRows chunks).Sorted (· ≤ ·) ∧
      (diffDelete existingRows chunks).Nodup ∧
      (∀ c, c ∈ diffRefresh existingRows chunks ↔
        (c ∈ chunks ∧ existingRows.lookup c.chunk_id ≠ some c.checksum))) ∧
    diffDelete c5PriorStore [c5ChunkA] = ["B"] ∧
    diffRefresh c5PriorStore [c5ChunkA] = [] := by
  refine ⟨fun existingRows chunks => ⟨mem_diffDelete_iff existingRows chunks,
    diffDelete_sorted existingRows chunks, diffDelete_nodup existingRows chunks,
    mem_diffRefresh_iff existingRows chunks⟩, ?_, ?_⟩
  · decide
  · decide

/-- C6: Round-trip of Persist.  After a successful `persist_sqlite` the
store's key column is exactly the fresh chunk-id column, and its
`id → checksum` mapping holds a pair exactly when the fresh chunk list has a
chunk with that id and checksum — no extra ids, no missing ids, no stale
checksums; the result does not depend on the store's prior contents, which
are deleted inside the same transaction. -/
theorem c6_persist_roundtrip (chunks : List DocumentChunk) (st : Store)
    (h : persist_sqlite chunks = some st) :
    st.map Prod.fst = chunks.map DocumentChunk.chunk_id ∧
    ∀ (k v : String), st.lookup k = some v ↔
      ∃ c ∈ chunks, c.chunk_id = k ∧ c.checksum = v := by
  obtain ⟨hnodup, hst⟩ := persist_sqlite_nodup h
  have hkeys : st.map Prod.fst = chunks.map DocumentChunk.chunk_id :=
    persist_sqlite_keys h
  refine ⟨hkeys, fun k v => ⟨?_, ?_⟩⟩
  · intro hl
    have hmem : (k, v) ∈ st := mem_of_lookup_eq_some hl
    rw [hst] at hmem
    obtain ⟨c, hc, hcv⟩ := List.mem_map.1 hmem
    exact ⟨c, hc, congrArg Prod.fst hcv, congrArg Prod.snd hcv⟩
  · rintro ⟨c, hc, hid, hcs⟩
    have hmem : (k, v) ∈ st := by
      rw [hst]
      exact List.mem_map.2 ⟨c, hc, by rw [hid, hcs]⟩
    exact lookup_eq_some_of_mem (by rw [hkeys]; exact hnodup) hmem

/-- Concrete chunk list for the C6 witness. -/
def c6Chunks : List DocumentChunk :=
  [{ chunk_id := "faq-x:1", source := "faq.json", topic := "x", body := "hi", checksum := "h9" }]

/-- The store persisted from `c6Chunks`. -/
def c6Store : Store :=
  (persist_sqlite c6Chunks).getD []

/-- Witness for C6 at a concrete chunk set: apply the round-trip theorem to
`c6Chunks` and its persisted store. -/
theorem c6_persist_roundtrip_witness :
    c6Store.map Prod.fst = c6Chunks.map DocumentChunk.chunk_id ∧
    ∀ (k v : String), c6Store.lookup k = some v ↔
      ∃ c ∈ c6Chunks, c.chunk_id = k ∧ c.checksum = v :=
  c6_persist_roundtrip c6Chunks c6Store (by decide)

/-- Single-file document set whose two documents have colliding slugs:
topics `"A B"` and `"A-B"` both slugify to `"a-b"`. -/
def c3Files : List (String × JValue) :=
  [("faq.json", .arr [.obj [("title", .str "A B")], .obj [("title", .str "A-B")]])]

/-- C3 counterexample: two logical documents of the same source whose topics
have the same slug produce the same `base_id`, and the run then emits two
chunks with the identical chunk id `"faq-a-b:1"` — the uniqueness invariant
fails exactly in the case the claim says it covers. -/
theorem c3_duplicate_chunk_id_counterexample :
    (build_chunks (fun _ => "h") c3Files 900 150).map (fun l => l.map DocumentChunk.chunk_id)
        = some ["faq-a-b:1", "faq-a-b:1"] ∧
    ¬ (["faq-a-b:1", "faq-a-b:1"] : List String).Nodup := by
  constructor
  · decide
  · decide

/-- C3 (amended): chunk ids of one run are pairwise distinct whenever the
`base_id`s of the run's logical documents are pairwise distinct (which holds
when no two documents of a source share a slugified topic and no two files
produce colliding `"<source>-<slug>"` prefixes).  Distinct bases suffice
because `chunk_id = base_id ++ ":" ++ decimal(seq)` determines both the base
and the sequence number. -/
theorem c3_unique_chunk_ids_of_distinct_base_ids
    (H : String → String) (files : List (String × JValue)) (chunkSize overlap : Nat)
    (chunks : List DocumentChunk)
    (hbuild : build_chunks H files chunkSize overlap = some chunks)
    (hbases : ((run_documents files).map (fun d => d.1)).Nodup) :
    (chunks.map DocumentChunk.chunk_id).Nodup :=
  (files_chunks_ids H chunkSize overlap (sortFiles files) chunks hbuild).2 hbases

/-- Single-file document set with distinct slugs for the C3 witness. -/
def c3GoodFiles : List (String × JValue) :=
  [("faq.json", .obj [("alpha", .str "x"), ("beta", .str "y")])]

/-- Witness for the amended C3 at a concrete document set with distinct
base ids: the computed chunk-id list is duplicate-free. -/
theorem c3_unique_chunk_ids_witness :
    (((build_chunks (fun _ => "h") c3GoodFiles 900 150).getD []).map
      DocumentChunk.chunk_id).Nodup :=
  c3_unique_chunk_ids_of_distinct_base_ids (fun _ => "h") c3GoodFiles 900 150
    ((build_chunks (fun _ => "h") c3GoodFiles 900 150).getD [])
    (by decide) (by decide)

/-- C4 counterexample: with `chunk_size = 1 > 0`, `overlap = 1` (so
`overlap ≥ chunk_size`) and the two-character text `"ab"`, the split loop
revisits the state `start = 0, end = 1` forever — `max(0, end - overlap)`
clamps the start to 0 and the window never advances — so no amount of fuel
completes the loop, and `split_text` exhausts its fuel. -/
theorem c4_nontermination_counterexample :
    (¬ ∃ fuel out, chunksLoop fuel "ab".data 1 1 0 1 = some out) ∧
      split_text "ab" 1 1 = none := by
  constructor
  · rintro ⟨fuel, out, h⟩
    rw [chunksLoop_fixpoint_ab fuel] at h
    cases h
  · decide

/-- C4 (amended): whenever `overlap < chunk_size`, the split loop makes
forward progress (the window end strictly grows each iteration), terminates
within `len(text) + 1` iterations, and the emitted windows reach the end of
the text exactly once — in the final window. -/
theorem c4_progress_of_overlap_lt_chunk_size (textLen chunkSize overlap : Nat)
    (h : overlap < chunkSize) :
    ∃ rs, split_ranges textLen chunkSize overlap = some rs ∧
      rs.countP (fun r => r.2 == textLen) = 1 ∧
      rs.getLast?.map Prod.snd = some textLen := by
  unfold split_ranges
  by_cases hle : textLen ≤ chunkSize
  · rw [if_pos hle]
    exact ⟨[(0, textLen)], rfl, by simp, by simp⟩
  · rw [if_neg hle]
    exact rangesLoop_terminates textLen chunkSize overlap h (textLen + 1) 0 chunkSize
      (by omega) (by omega) (by omega)

/-- Witness for the amended C4 at the default configuration
`chunk_size = 900, overlap = 150` on a 2000-character text. -/
theorem c4_progress_witness :
    ∃ rs, split_ranges 2000 900 150 = some rs ∧
      rs.countP (fun r => r.2 == 2000) = 1 ∧
      rs.getLast?.map Prod.snd = some 2000 :=
  c4_progress_of_overlap_lt_chunk_size 2000 900 150 (by decide)

/-- C9 counterexample: `PineconeClient.delete` sends every id in a single
request — with 33 stale ids the one delete request carries 33 ids, more than
the (default) batch size 32, so delete requests are not issued in bounded
batches: the request grows linearly with the input. -/
theorem c9_unbatched_delete_counterexample :
    ∃ r ∈ pinecone_delete_requests (List.replicate 33 "faq-a:1"), 32 < r.length := by
  refine ⟨List.replicate 33 "faq-a:1", ?_, ?_⟩
  · simp [pinecone_delete_requests]
  · simp

/-- C9 (amended): every remote upsert request of `PineconeClient.upsert`
carries at most `batch_size` vectors (for a positive batch size), while
`PineconeClient.delete` issues exactly one request carrying the entire id
list, unbatched. -/
theorem c9_bounded_upsert_single_delete {α : Type} (vectors : List α)
    (ids : List String) (batchSize : Nat) (h : 0 < batchSize) :
    (∀ r ∈ pinecone_upsert_requests vectors batchSize, r.length ≤ batchSize) ∧
    pinecone_delete_requests ids = [ids] :=
  ⟨fun r hr => chunked_length_le vectors batchSize r hr, rfl⟩

/-- Witness for the amended C9 with 33 vectors at batch size 32. -/
theorem c9_bounded_upsert_single_delete_witness :
    (∀ r ∈ pinecone_upsert_requests (List.replicate 33 (0 : Nat)) 32, r.length ≤ 32) ∧
    pinecone_delete_requests ["faq-a:1"] = [["faq-a:1"]] :=
  c9_bounded_upsert_single_delete (List.replicate 33 (0 : Nat)) ["faq-a:1"] 32 (by decide)

/-- C10: Deterministic chunk enumeration.  For fixed directory contents —
any two listings of the same files, in any enumeration order, with the
distinct file names a directory guarantees — `build_chunks` produces the
same chunk list, because the files are processed in sorted-name order and
everything downstream is a pure function of the sorted listing. -/
theorem c10_deterministic_chunks (H : String → String) (chunkSize overlap : Nat)
    (files₁ files₂ : List (String × JValue)) (hp : files₁.Perm files₂)
    (hn : (files₁.map Prod.fst).Nodup) :
    build_chunks H files₁ chunkSize overlap = build_chunks H files₂ chunkSize overlap := by
  unfold build_chunks
  rw [sortFiles_eq_of_perm files₁ files₂ hp hn]

/-- Witness for C10: two enumeration orders of the same two files produce
the same chunk list. -/
theorem c10_deterministic_chunks_witness :
    build_chunks (fun _ => "h") [("b.json", JValue.null), ("a.json", JValue.null)] 900 150
      = build_chunks (fun _ => "h") [("a.json", JValue.null), ("b.json", JValue.null)] 900 150 :=
  c10_deterministic_chunks (fun _ => "h") 900 150
    [("b.json", JValue.null), ("a.json", JValue.null)]
    [("a.json", JValue.null), ("b.json", JValue.null)]
    (List.Perm.swap ("a.json", JValue.null) ("b.json", JValue.null) [])
    (by decide)

set_option maxRecDepth 4000 in
/-- The loop windows of a 2000-character text at the default configuration,
computed once and shared by the C7 proofs. -/
theorem rangesLoop_at_2000 :
    rangesLoop (2000 + 1) 2000 900 150 0 900
      = some [(0, 900), (750, 1650), (1500, 2000)] := by
  decide

/-- C7 counterexample: a 2000-character all-whitespace text takes the three
windows of the claim, but every window strips to the empty string and is
dropped, so `split` returns 0 chunks, not 3 — the "producing 3 chunks" part
fails for such texts. -/
theorem c7_whitespace_text_counterexample :
    (String.mk (List.replicate 2000 ' ')).length = 2000 ∧
    split_text ⟨List.replicate 2000 ' '⟩ 900 150 = some [] := by
  have hlen : (String.mk (List.replicate 2000 ' ')).length = 2000 := by
    show (List.replicate 2000 ' ').length = 2000
    rw [List.length_replicate]
  have hd : (String.mk (List.replicate 2000 ' ')).data.length = 2000 := hlen
  refine ⟨hlen, ?_⟩
  rw [split_text, if_neg (by rw [hlen]; norm_num)]
  rw [chunksLoop_eq_rangesLoop, hlen, hd, rangesLoop_at_2000]
  have hsl : ∀ a b : Nat,
      stripL (listSlice (String.mk (List.replicate 2000 ' ')).data a b) = [] := by
    intro a b
    show stripL (listSlice (List.replicate 2000 ' ') a b) = []
    rw [listSlice, List.take_replicate, List.drop_replicate, stripL_replicate_space]
  simp only [Option.map_some', List.map_cons, List.map_nil, hsl]
  simp

/-- C7 (amended): every text of exactly 2000 characters is split with
`chunk_size = 900, overlap = 150` at the window positions `[0, 900)`,
`[750, 1650)`, `[1500, 2000)`; when every window is non-empty after trimming
(for instance, a whitespace-free text), the result is exactly the three
windows — 3 chunks, the last one 500 characters, shorter than the others. -/
theorem c7_window_positions (t : String) (h : t.length = 2000) :
    split_ranges t.length 900 150 = some [(0, 900), (750, 1650), (1500, 2000)] ∧
    ((∀ c ∈ t.data, pyWS c = false) →
      split_text t 900 150 = some [sliceS t 0 900, sliceS t 750 1650, sliceS t 1500 2000] ∧
      (sliceS t 1500 2000).length = 500) := by
  have hr := rangesLoop_at_2000
  have hd : t.data.length = 2000 := h
  constructor
  · rw [h, split_ranges, if_neg (by norm_num)]
    exact hr
  · intro hw
    have hslice : ∀ a b : Nat, stripL (listSlice t.data a b) = listSlice t.data a b :=
      fun a b => stripL_eq_self_of_no_ws _ (fun c hc => hw c (mem_of_mem_listSlice hc))
    have hlen1 : (listSlice t.data 0 900).length = 900 := by
      rw [length_listSlice, hd]
      omega
    have hlen2 : (listSlice t.data 750 1650).length = 900 := by
      rw [length_listSlice, hd]
      omega
    have hlen3 : (listSlice t.data 1500 2000).length = 500 := by
      rw [length_listSlice, hd]
      omega
    have hne1 : listSlice t.data 0 900 ≠ [] := by
      intro hc; rw [hc] at hlen1; exact absurd hlen1 (by decide)
    have hne2 : listSlice t.data 750 1650 ≠ [] := by
      intro hc; rw [hc] at hlen2; exact absurd hlen2 (by decide)
    have hne3 : listSlice t.data 1500 2000 ≠ [] := by
      intro hc; rw [hc] at hlen3; exact absurd hlen3 (by decide)
    refine ⟨?_, hlen3⟩
    rw [split_text, if_neg (by rw [h]; norm_num)]
    rw [chunksLoop_eq_rangesLoop, h, hd, hr]
    simp only [Option.map_some', List.map_cons, List.map_nil,
      hslice 0 900, hslice 750 1650, hslice 1500 2000]
    simp [hne1, hne2, hne3, sliceS]

/-- A concrete whitespace-free 2000-character text for the C7 witness. -/
def c7Text : String :=
  ⟨List.replicate 2000 'a'⟩

/-- Witness for the amended C7 at a concrete 2000-character text. -/
theorem c7_window_positions_witness :
    split_ranges c7Text.length 900 150 = some [(0, 900), (750, 1650), (1500, 2000)] ∧
    (split_text c7Text 900 150
        = some [sliceS c7Text 0 900, sliceS c7Text 750 1650, sliceS c7Text 1500 2000] ∧
      (sliceS c7Text 1500 2000).length = 500) := by
  have hlen : c7Text.length = 2000 := by
    show (List.replicate 2000 'a').length = 2000
    rw [List.length_replicate]
  have hw : ∀ c ∈ c7Text.data, pyWS c = false := by
    intro c hc
    have hca : c = 'a' := List.eq_of_mem_replicate hc
    rw [hca]
    rfl
  exact ⟨(c7_window_positions c7Text hlen).1, (c7_window_positions c7Text hlen).2 hw⟩

/-- C8 counterexample: for an all-whitespace text of length at most
`chunk_size`, the early-return path gives `[text.strip()]` without the
empty-chunk filter, so the returned sequence contains the empty string —
refuting "every element is non-empty" in the single-chunk case. -/
theorem c8_empty_single_chunk_counterexample :
    ∃ res, split_text "  " 900 150 = some res ∧ "" ∈ res :=
  ⟨[""], by decide, by decide⟩

/-- C8 (amended): every element of a completed split is whitespace-trimmed,
and in the loop path (`len(text) > chunk_size`) every element is also
non-empty (empty chunks are dropped); the single-chunk path returns the
trimmed text unfiltered, which is empty exactly when the text is
all-whitespace. -/
theorem c8_trimmed_chunks (t : String) (chunkSize overlap : Nat)
    (res : List String) (h : split_text t chunkSize overlap = some res) :
    (∀ w ∈ res, stripS w = w) ∧
    (chunkSize < t.length → ∀ w ∈ res, w ≠ "") := by
  rw [split_text] at h
  by_cases hle : t.length ≤ chunkSize
  · rw [if_pos hle] at h
    cases h
    constructor
    · intro w hw
      have hws : w = stripS t := List.mem_singleton.1 hw
      rw [hws, stripS_idem]
    · intro hlt
      exact absurd hle (by omega)
  · rw [if_neg hle] at h
    cases hcl : chunksLoop (t.length + 1) t.data chunkSize overlap 0 chunkSize with
    | none => rw [hcl] at h; cases h
    | some cl =>
      rw [hcl] at h
      cases h
      constructor
      · intro w hw
        obtain ⟨m, hm, hmk⟩ := List.mem_map.1 hw
        have hm' : m ∈ cl := (List.mem_filter.1 hm).1
        obtain ⟨u, hu⟩ := chunksLoop_elems_stripped _ _ _ _ _ _ _ hcl m hm'
        rw [← hmk]
        apply String.ext
        show stripL m = m
        rw [hu, stripL_idem]
      · intro _ w hw
        obtain ⟨m, hm, hmk⟩ := List.mem_map.1 hw
        have hne : m ≠ [] := by simpa using (List.mem_filter.1 hm).2
        rw [← hmk]
        intro hcon
        apply hne
        have hdata := congrArg String.data hcon
        simpa using hdata

/-- Witness for the amended C8 on `split_text "abc" 2 1 = ["ab", "bc"]`. -/
theorem c8_trimmed_chunks_witness :
    (∀ w ∈ ["ab", "bc"], stripS w = w) ∧
    (2 < "abc".length → ∀ w ∈ ["ab", "bc"], w ≠ "") :=
  c8_trimmed_chunks "abc" 2 1 ["ab", "bc"] (by decide)

end BuildRag
